import Mathlib

/-!
Verification of the pipeline-combinator library in
src/consumers_and_producers.h and src/read_write_filters.h, together with
the protobuf field-accessor layer of
src/examples/protobuf-traversal/proto_accessors_test.cc.

Modelling choices, traced from the source:

The C++ library is a push-based callback algebra.  A C++ consumer is a
side-effecting sink; we model side effects by explicit state passing over
an arbitrary state type.  A consumer of values of type T over state sigma
becomes a function that takes a value and transforms the state; a
producer, which in C++ synchronously calls its consumer zero or more
times, becomes a function taking the consumer and threading the state
through every callback.  Every combinator below is a line-for-line
transcription of the corresponding C++ lambda, with state passed
explicitly where C++ mutates via captured references.

C++ mutable pointers into a record tree are modelled as lenses over the
state, and a nullable pointer becomes an Option of a lens.  A C++ const
reference into the tree is modelled as a live getter on the state, so
that a read through the reference observes mutations made earlier in the
same traversal, exactly as a C++ reference would.
-/

namespace CP

/-- A consumer is a value sink (C++ `Consumer<T>`); consuming a value
transforms the ambient state. -/
def Consumer (σ T : Type) : Type := T → σ → σ

/-- A producer is a value source (C++ `Producer<T>`); invoking it with a
consumer feeds the consumer zero or more values, threading the state. -/
def Producer (σ T : Type) : Type := Consumer σ T → σ → σ

/-- A filter takes an A and from it produces Bs (C++ `Filter<A, B>`). -/
def Filter (σ A B : Type) : Type := A → Producer σ B

/-- An effect is a deferred zero-argument action (C++ `Effect`). -/
def Effect (σ : Type) : Type := σ → σ

/-- C++ `Fuse(p, c)`: bind a producer to a consumer, yielding the
deferred traversal. -/
def Fuse {σ T : Type} (p : Producer σ T) (c : Consumer σ T) : Effect σ :=
  fun s => p c s

/-- C++ `PZero<T>()`: the empty producer; it never calls its consumer. -/
def PZero {σ T : Type} : Producer σ T :=
  fun _c s => s

/-- C++ `operator+` on producers: run `p1`, then `p2`, on the same
consumer (value-serial union). -/
def PAdd {σ T : Type} (p1 p2 : Producer σ T) : Producer σ T :=
  fun c s => p2 c (p1 c s)

/-- C++ `CZero<T>()`: the consumer that ignores every value. -/
def CZero {σ T : Type} : Consumer σ T :=
  fun _x s => s

/-- C++ `operator+` on consumers: feed each value to `c1`, then `c2`. -/
def CAdd {σ T : Type} (c1 c2 : Consumer σ T) : Consumer σ T :=
  fun t s => c2 t (c1 t s)

/-- C++ `Fmap(f, p)`: map `f` over every value `p` produces. -/
def Fmap {σ A B : Type} (f : A → B) (p : Producer σ A) : Producer σ B :=
  fun cB s => p (fun x s => cB (f x) s) s

/-- C++ `Cofmap(f, c)`: contravariant map on consumers. -/
def Cofmap {σ A B : Type} (f : B → A) (c : Consumer σ A) : Consumer σ B :=
  fun x s => c (f x) s

/-- C++ `PUnit(x)`: the producer of exactly the single value `x`. -/
def PUnit {σ A : Type} (x : A) : Producer σ A :=
  fun c s => c x s

/-- C++ `PJoin(p_PA)`: flatten a producer of producers, running each
inner producer as soon as it is yielded. -/
def PJoin {σ A : Type} (pPA : Producer σ (Producer σ A)) : Producer σ A :=
  fun c s => pPA (fun p s => p c s) s

/-- C++ `PBind(p, f)` (infix `|`): `PJoin(Fmap(f, p))`. -/
def PBind {σ A B : Type} (p : Producer σ A) (f : Filter σ A B) : Producer σ B :=
  PJoin (Fmap f p)

/-- C++ `PPure(x)`: alias for `PUnit`. -/
def PPure {σ A : Type} (x : A) : Producer σ A :=
  PUnit x

/-- C++ `PApply(p_FnAB, p_A)`: for every function yielded by the first
producer, map it over the second producer. -/
def PApply {σ A B : Type} (pf : Producer σ (A → B)) (pa : Producer σ A) :
    Producer σ B :=
  PBind pf (fun f => Fmap f pa)

/-- C++ unary `LiftA(f)`: lift a 1-ary function over one producer. -/
def LiftA1 {σ A B : Type} (f : A → B) : Producer σ A → Producer σ B :=
  fun p => Fmap f p

/-- C++ variadic `LiftA(f)` at arity 2, following the recursive template:
`PApply(Fmap(flip_app, p), LiftA(Bind)(q))` with `Bind b = fun a => f a b`
and `flip_app x g = g x`. -/
def LiftA2 {σ A B C : Type} (f : A → B → C) (p : Producer σ A)
    (q : Producer σ B) : Producer σ C :=
  PApply (Fmap (fun x => fun g => g x) p) (LiftA1 (fun b => fun a => f a b) q)

/-- C++ variadic `LiftA(f)` at arity 3, one more unrolling of the same
recursive template. -/
def LiftA3 {σ A B C D : Type} (f : A → B → C → D) (p : Producer σ A)
    (q : Producer σ B) (r : Producer σ C) : Producer σ D :=
  PApply (Fmap (fun x => fun g => g x) p)
    (LiftA2 (fun b c => fun a => f a b c) q r)

/-- C++ `PCross(p, q)` at arity 2: producer of pairs via `LiftA`. -/
def PCross {σ A B : Type} (p : Producer σ A) (q : Producer σ B) :
    Producer σ (A × B) :=
  LiftA2 Prod.mk p q

/-- C++ `PCross(p, q, r)` at arity 3. -/
def PCross3 {σ A B C : Type} (p : Producer σ A) (q : Producer σ B)
    (r : Producer σ C) : Producer σ (A × B × C) :=
  LiftA3 (fun a b c => (a, b, c)) p q r

/-- C++ `KleisliComposition(f, g)` (infix `*`): chain two filters. -/
def KleisliComposition {σ A B C : Type} (f : Filter σ A B) (g : Filter σ B C) :
    Filter σ A C :=
  fun x => PBind (f x) g

/-- C++ `operator+` on filters: run both filters on the same input and
concatenate their outputs, `f` first. -/
def FAdd {σ A B : Type} (f g : Filter σ A B) : Filter σ A B :=
  fun x => PAdd (f x) (g x)

/-- C++ `FFork(f, g)` at arity 2: run both filters on the shared input
and take the cross product of the result producers. -/
def FFork {σ X B1 B2 : Type} (f : Filter σ X B1) (g : Filter σ X B2) :
    Filter σ X (B1 × B2) :=
  fun x => PCross (f x) (g x)

/-- C++ `FCross(f, g)` at arity 2: apply each filter to its tuple slot
and cross the results. -/
def FCross {σ X1 X2 B1 B2 : Type} (f : Filter σ X1 B1) (g : Filter σ X2 B2) :
    Filter σ (X1 × X2) (B1 × B2) :=
  fun t => PCross (f t.1) (g t.2)

/-- A producer that yields exactly the elements of a list, in order.
This captures the specification invariant (section 3) that a conforming
producer delivers a fixed, deterministic value sequence; it mirrors the
`Produce` helpers over repeated fields in the test files. -/
def ofList {σ T : Type} (l : List T) : Producer σ T :=
  fun c s => l.foldl (fun s t => c t s) s

/-- The recording consumer of the tests (`add_to_names` pushing onto a
vector): state is the list of values consumed so far. -/
def recorder {T : Type} : Consumer (List T) T :=
  fun t s => s ++ [t]

/-- Run a producer against the recording consumer from an empty record;
the result is the sequence of values the producer delivers. -/
def run {T : Type} (p : Producer (List T) T) : List T :=
  p recorder []

/-!
Read-write duality layer, from src/read_write_filters.h.

A C++ mutable pointer `A*` into the state is modelled as a lens: a
getter reading the pointee out of the state and a setter storing a new
pointee.  A nullable pointer is an Option of a lens.  A C++ const
reference is a live getter on the state.
-/

/-- A mutable handle into the state: the functional model of a C++
pointer into the record tree owned by the traversal. -/
structure Lens (σ α : Type) where
  get : σ → α
  set : α → σ → σ

/-- Composing a handle to a record with a handle from that record to one
of its fields (C++ `p->mutable_field()` on a pointed-to record). -/
def Lens.comp {σ α β : Type} (l : Lens σ α) (m : Lens α β) : Lens σ β :=
  { get := fun s => m.get (l.get s)
    set := fun b s => l.set (m.set b (l.get s)) s }

/-- The handle to the whole state: the C++ address of the root record
(`&company`). -/
def Lens.root {σ : Type} : Lens σ σ :=
  { get := fun s => s, set := fun x _ => x }

/-- The handle to the first component of a product state, used when the
state carries the record tree alongside auxiliary observation data. -/
def Lens.fst {σ τ : Type} : Lens (σ × τ) σ :=
  { get := fun s => s.1, set := fun x s => (x, s.2) }

/-- C++ `RW<A>`, a read-write accessor pair: `ro` is a const reference
(modelled live, as a getter on the current state) and `rw` is a possibly
null mutable pointer (an optional lens). -/
structure RW (σ α : Type) where
  ro : σ → α
  rw : Option (Lens σ α)

/-- C++ `RWFilter<P, F> = Filter<RW<P>, RW<F>>`. -/
def RWFilter (σ P F : Type) : Type := Filter σ (RW σ P) (RW σ F)

/-- C++ `ReadOnly(rwfilt)` (scalar overload): run the filter with an
absent mutable handle and surface only the read-only half of each
result.  The consumer receives the referenced value. -/
def ReadOnly {σ P F : Type} (rwfilt : RWFilter σ P F) : Filter σ P F :=
  fun p => fun roc s =>
    rwfilt { ro := fun _ => p, rw := none }
      (fun rwval s => roc (rwval.ro s) s) s

/-- C++ `ReadWrite(rwfilt)` (scalar overload): given a nullable pointer
to the root record, short-circuit to `PZero` on null; otherwise run the
filter with a live handle (`RW<P>{*p, p}`) and surface the mutable half
of each result. -/
def ReadWrite {σ P F : Type} (rwfilt : RWFilter σ P F) :
    Filter σ (Option (Lens σ P)) (Option (Lens σ F)) :=
  fun p? =>
    match p? with
    | none => PZero
    | some pl =>
        fun mpc s =>
          rwfilt { ro := pl.get, rw := some pl }
            (fun rwval s => mpc rwval.rw s) s

/-- C++ tuple-overload `ReadOnly` at arity 2: decompose each tuple of RW
pairs into the tuple of its read-only halves (`_RWTupleHelper::TupleRO`),
elementwise, preserving position. -/
def ReadOnlyT {σ P F1 F2 : Type}
    (rwfilt : Filter σ (RW σ P) (RW σ F1 × RW σ F2)) :
    Filter σ P (F1 × F2) :=
  fun p => fun roc s =>
    rwfilt { ro := fun _ => p, rw := none }
      (fun rwval s => roc (rwval.1.ro s, rwval.2.ro s) s) s

/-- C++ tuple-overload `ReadWrite` at arity 2.  Unlike the scalar
overload, the source has no null guard: it evaluates `RW<P>{*p, p}`
unconditionally, so running the returned producer on a null pointer
dereferences null.  We surface that undefined behaviour by returning
`none` from the traversal; a successful traversal returns `some` of the
final state. -/
def ReadWriteT {σ P F1 F2 : Type}
    (rwfilt : Filter σ (RW σ P) (RW σ F1 × RW σ F2))
    (p? : Option (Lens σ P))
    (mpc : Consumer σ (Option (Lens σ F1) × Option (Lens σ F2))) (s : σ) :
    Option σ :=
  match p? with
  | none => none
  | some pl =>
      some (rwfilt { ro := pl.get, rw := some pl }
        (fun rwval s => mpc (rwval.1.rw, rwval.2.rw) s) s)

/-!
Field-accessor generation, from `ProtoAccessors` in
src/examples/protobuf-traversal/proto_accessors_test.cc.

A read accessor `const F& (P::*)() const` becomes a getter `P → F`; a
mutable accessor `F* (P::*)()` becomes a lens `Lens P F`; the guarded
pointer access `access(P* p, rwa)` — documented in the source as never
dereferencing null and returning null on a null record — becomes
`Option.map` of lens composition.  The C++ filters test presence and
read fields when the filter is applied; the produced values are consumed
immediately by the enclosing traversal, so evaluating those reads when
the producer runs, as done here, observes the same states.
-/

/-- C++ `ProtoAccessors::optional_obj(hasa, roa, rwa)`: one RW view if
the presence test succeeds, else the empty producer. -/
def optional_obj {σ P F : Type} (hasa : P → Bool) (roa : P → F)
    (rwa : Lens P F) : RWFilter σ P F :=
  fun rwp => fun c s =>
    if hasa (rwp.ro s) then
      PUnit (RW.mk (fun s => roa (rwp.ro s)) (rwp.rw.map (fun l => l.comp rwa))) c s
    else
      PZero c s

/-- C++ `ProtoAccessors::required_obj(roa, rwa)`: always exactly one RW
view of the field. -/
def required_obj {σ P F : Type} (roa : P → F) (rwa : Lens P F) :
    RWFilter σ P F :=
  fun rwp =>
    PUnit (RW.mk (fun s => roa (rwp.ro s)) (rwp.rw.map (fun l => l.comp rwa)))

/-- The handle to the i-th element of a repeated collection
(C++ `RepeatedPtrField::Mutable(i)`); reads out of range yield the
default element, a case the traversals below never exercise. -/
def idxLens {F : Type} [Inhabited F] (i : Nat) : Lens (List F) F :=
  { get := fun l => l.getD i default, set := fun x l => l.set i x }

/-- C++ `ProtoAccessors::scan_ptrs()`: iterate the read-only collection,
yielding per element an RW view that pairs the i-th read-only element
with `Mutable(i)` when the collection handle is present and with an
absent handle otherwise. -/
def scan_ptrs {σ F : Type} [Inhabited F] : RWFilter σ (List F) F :=
  fun rwRpf => fun c s =>
    (List.range (rwRpf.ro s).length).foldl
      (fun s i =>
        c (RW.mk (fun s => (rwRpf.ro s).getD i default)
            (rwRpf.rw.map (fun l => l.comp (idxLens i)))) s)
      s

/-- C++ `ProtoAccessors::repeated_obj(roa, rwa)`:
`required_obj(roa, rwa) * scan_ptrs<F>()`. -/
def repeated_obj {σ P F : Type} [Inhabited F] (roa : P → List F)
    (rwa : Lens P (List F)) : RWFilter σ P F :=
  KleisliComposition (required_obj roa rwa) scan_ptrs

/-!
Record layer.  Modelled from the spec: the protobuf message classes of
example.pb.h (generated from example.proto, which is not under src/) are
external to the core; spec section 6 requires of them only a read
accessor, a mutable accessor that maps null records to null, a presence
test for optional fields, and indexed access plus length for repeated
collections.  The company / team / person shape follows the worked
example of spec section 8 and the generated-code block of the test file:
a Person has a required name; a Team has an optional name, an optional
manager and repeated members; a Company has a required name and repeated
teams.
-/

/-- Modelled from the spec: the `Person` record with its required
`name` field. -/
structure Person where
  name : String
deriving Repr, DecidableEq

instance : Inhabited Person := ⟨⟨""⟩⟩

/-- Modelled from the spec: the `Team` record with an optional `name`,
an optional `manager` and a repeated `members` collection. -/
structure Team where
  name : Option String
  manager : Option Person
  members : List Person
deriving Repr, DecidableEq

instance : Inhabited Team := ⟨⟨none, none, []⟩⟩

/-- Modelled from the spec: the `Company` record with a required `name`
and a repeated `teams` collection. -/
structure Company where
  name : String
  teams : List Team
deriving Repr, DecidableEq

instance : Inhabited Company := ⟨⟨"", []⟩⟩

/-- The raw field lens for `Person.name` (`mutable_name`). -/
def personNameLens : Lens Person String :=
  { get := fun p => p.name, set := fun x p => { p with name := x } }

/-- The raw field lens for `Team.name` (`mutable_name` on a team; the
read accessor of an unset optional string yields the empty default). -/
def teamNameLens : Lens Team String :=
  { get := fun t => t.name.getD ""
    set := fun x t => { t with name := some x } }

/-- The raw field lens for `Team.manager` (`mutable_manager`). -/
def teamManagerLens : Lens Team Person :=
  { get := fun t => t.manager.getD default
    set := fun m t => { t with manager := some m } }

/-- The raw field lens for `Team.members` (`mutable_members`). -/
def teamMembersLens : Lens Team (List Person) :=
  { get := fun t => t.members, set := fun ms t => { t with members := ms } }

/-- The raw field lens for `Company.teams` (`mutable_teams`). -/
def companyTeamsLens : Lens Company (List Team) :=
  { get := fun c => c.teams, set := fun ts c => { c with teams := ts } }

/-- The raw field lens for `Company.name` (`mutable_name`). -/
def companyNameLens : Lens Company String :=
  { get := fun c => c.name, set := fun x c => { c with name := x } }

/-- `CompanyA::name` of the generated accessor table. -/
def companyName {σ : Type} : RWFilter σ Company String :=
  required_obj (fun c => c.name) companyNameLens

/-- `CompanyA::teams` of the generated accessor table. -/
def companyTeams {σ : Type} : RWFilter σ Company Team :=
  repeated_obj (fun c => c.teams) companyTeamsLens

/-- `TeamA::manager` of the generated accessor table. -/
def teamManager {σ : Type} : RWFilter σ Team Person :=
  optional_obj (fun t => t.manager.isSome) (fun t => t.manager.getD default)
    teamManagerLens

/-- `TeamA::members` of the generated accessor table. -/
def teamMembers {σ : Type} : RWFilter σ Team Person :=
  repeated_obj (fun t => t.members) teamMembersLens

/-- `TeamA::name` of the generated accessor table. -/
def teamName {σ : Type} : RWFilter σ Team String :=
  optional_obj (fun t => t.name.isSome) (fun t => t.name.getD "") teamNameLens

/-- `PersonA::name` of the generated accessor table. -/
def personName {σ : Type} : RWFilter σ Person String :=
  required_obj (fun p => p.name) personNameLens

/-- The manager-names pipeline of the mutation round-trip test:
`c.teams * t.manager * p.name` (chaining is left-associated in the
source). -/
def managerNames {σ : Type} : RWFilter σ Company String :=
  KleisliComposition (KleisliComposition companyTeams teamManager) personName

/-- Observing a read-write filter in read-only mode with the recording
consumer: the value sequence the read-only projection delivers. -/
def observeRO {P F : Type} (rwf : RWFilter (List F) P F) (p : P) : List F :=
  run (ReadOnly rwf p)

/-- Running a read-write projection over the root record with a consumer
that rewrites every surfaced field through its mutable handle by `u`
(the shape of the `unmask_xmen` consumer of the test). -/
def rewriteAll {P F : Type} (rwf : RWFilter P P F) (u : F → F) (s : P) : P :=
  ReadWrite rwf (some Lens.root)
    (fun h? s =>
      match h? with
      | none => s
      | some l => l.set (u (l.get s)) s)
    s

/-!
General lemmas about the embedding: how the combinators act on
sequence-like producers, and book-keeping about folds over index ranges.
-/

theorem ofList_cons {σ T : Type} (t : T) (l : List T) (c : Consumer σ T)
    (s : σ) : ofList (t :: l) c s = ofList l c (c t s) := rfl

theorem PAdd_ofList {σ T : Type} (l1 l2 : List T) :
    PAdd (ofList l1) (ofList l2) = (ofList (l1 ++ l2) : Producer σ T) := by
  funext c s
  simp [PAdd, ofList, List.foldl_append]

theorem Fmap_ofList {σ A B : Type} (f : A → B) (l : List A) :
    Fmap f (ofList l) = (ofList (l.map f) : Producer σ B) := by
  funext c s
  induction l generalizing s with
  | nil => rfl
  | cons t l ih => simpa [Fmap, ofList_cons] using ih (c (f t) s)

theorem PBind_ofList {σ A B : Type} (l : List A) (K : A → List B) :
    PBind (ofList l) (fun a => ofList (K a)) =
      (ofList (l.flatMap K) : Producer σ B) := by
  funext c s
  induction l generalizing s with
  | nil => rfl
  | cons t l ih =>
      show ofList l _ (ofList (K t) c s) = _
      simpa [ofList, List.foldl_append] using ih (ofList (K t) c s)

theorem run_ofList {T : Type} (l : List T) : run (ofList l) = l := by
  have key : ∀ (l : List T) (s : List T),
      List.foldl (fun s t => s ++ [t]) s l = s ++ l := by
    intro l
    induction l with
    | nil => simp
    | cons t l ih => intro s; simp [ih (s ++ [t])]
  simpa using key l []

theorem LiftA2_ofList {σ A B C : Type} (f : A → B → C) (la : List A)
    (lb : List B) :
    LiftA2 f (ofList la) (ofList lb) =
      (ofList (la.flatMap fun a => lb.map (f a)) : Producer σ C) := by
  show PBind (Fmap _ (ofList la)) (fun g => Fmap g (Fmap _ (ofList lb))) = _
  rw [Fmap_ofList, Fmap_ofList]
  have : (fun g => Fmap g (ofList (lb.map fun b a => f a b))) =
      fun g => (ofList ((lb.map fun b a => f a b).map g) : Producer σ C) := by
    funext g
    rw [Fmap_ofList]
  rw [this, PBind_ofList]
  simp [List.flatMap_map, Function.comp_def]

theorem LiftA3_ofList {σ A B C D : Type} (f : A → B → C → D) (la : List A)
    (lb : List B) (lc : List C) :
    LiftA3 f (ofList la) (ofList lb) (ofList lc) =
      (ofList (la.flatMap fun a => lb.flatMap fun b => lc.map (f a b)) :
        Producer σ D) := by
  show PBind (Fmap _ (ofList la))
      (fun g => Fmap g (LiftA2 _ (ofList lb) (ofList lc))) = _
  rw [Fmap_ofList, LiftA2_ofList]
  have : (fun g => Fmap g (ofList (lb.flatMap fun b => lc.map fun c a => f a b c))) =
      fun g => (ofList ((lb.flatMap fun b => lc.map fun c a => f a b c).map g) :
        Producer σ D) := by
    funext g
    rw [Fmap_ofList]
  rw [this, PBind_ofList]
  simp [List.flatMap_map, List.map_flatMap, Function.comp_def]

theorem PCross_ofList {σ A B : Type} (la : List A) (lb : List B) :
    PCross (ofList la) (ofList lb) =
      (ofList (la.flatMap fun a => lb.map (Prod.mk a)) : Producer σ (A × B)) :=
  LiftA2_ofList Prod.mk la lb

theorem PCross3_ofList {σ A B C : Type} (la : List A) (lb : List B)
    (lc : List C) :
    PCross3 (ofList la) (ofList lb) (ofList lc) =
      (ofList (la.flatMap fun a => lb.flatMap fun b => lc.map fun c => (a, b, c)) :
        Producer σ (A × B × C)) :=
  LiftA3_ofList (fun a b c => (a, b, c)) la lb lc

theorem foldl_range_succ {σ : Type} (φ : σ → Nat → σ) (s : σ) (n : Nat) :
    (List.range (n + 1)).foldl φ s = φ ((List.range n).foldl φ s) n := by
  rw [List.range_succ, List.foldl_append]
  rfl

theorem perm_flatMap_append {A B : Type} (l : List A) (f g : A → List B) :
    (l.flatMap fun a => f a ++ g a).Perm (l.flatMap f ++ l.flatMap g) := by
  induction l with
  | nil => rfl
  | cons a l ih =>
      simp only [List.flatMap_cons]
      refine List.Perm.trans (ih.append_left (f a ++ g a)) ?_
      simp only [List.append_assoc]
      exact ((List.perm_append_comm_assoc (g a) (l.flatMap f)
        (l.flatMap g)).append_left (f a))

theorem perm_flatMap_comm {A B C : Type} (xs : List A) (ys : List B)
    (φ : A → B → List C) :
    (xs.flatMap fun x => ys.flatMap fun y => φ x y).Perm
      (ys.flatMap fun y => xs.flatMap fun x => φ x y) := by
  induction xs with
  | nil => simp
  | cons x xs ih =>
      simp only [List.flatMap_cons]
      refine List.Perm.trans (ih.append_left _) ?_
      exact (perm_flatMap_append ys (fun y => φ x y)
        (fun y => xs.flatMap fun x => φ x y)).symm

theorem perm_flatMap_congr {A B : Type} (l : List A) {p q : A → List B}
    (h : ∀ a, (p a).Perm (q a)) : (l.flatMap p).Perm (l.flatMap q) := by
  induction l with
  | nil => rfl
  | cons a l ih =>
      simp only [List.flatMap_cons]
      exact (h a).append ih

/-!
Claim theorems.
-/

/-- C1: for every read-write filter, applying `ReadWrite` to a null
root pointer yields the empty producer: the filter is never applied
(the equation holds for an arbitrary filter, whose behaviour is never
consulted), and fusing any consumer to the result yields an effect that
leaves the state untouched, so the consumer is never invoked and no
field of the record is accessed. -/
theorem c1_readWrite_null_is_empty {σ P F : Type} (rwfilt : RWFilter σ P F) :
    ReadWrite rwfilt none = (PZero : Producer σ (Option (Lens σ F))) ∧
      ∀ (c : Consumer σ (Option (Lens σ F))) (s : σ),
        Fuse (ReadWrite rwfilt none) c s = s :=
  ⟨rfl, fun _ _ => rfl⟩

/-- C2: contrary to the claim, the tuple-variant `ReadWrite` of
src/read_write_filters.h lines 93-106 has no null guard: on a null input
pointer it evaluates `RW<P>{*p, p}`, dereferencing null, instead of
short-circuiting to the empty producer.  In the model the traversal
aborts with `none` (undefined behaviour) for every filter, consumer and
state, rather than returning the untouched state `some s` that an empty
producer would give. -/
theorem c2_tuple_readWrite_null_faults {σ P F1 F2 : Type}
    (rwfilt : Filter σ (RW σ P) (RW σ F1 × RW σ F2))
    (mpc : Consumer σ (Option (Lens σ F1) × Option (Lens σ F2))) (s : σ) :
    ReadWriteT rwfilt none mpc s = none :=
  rfl

/-- C3: the producer monad laws, delivered-sequence equality for every
consumer and every starting state: left identity, right identity, and
associativity of bind against Kleisli composition. -/
theorem c3_monad_laws {σ A B C : Type} (a : A) (p : Producer σ A)
    (f : Filter σ A B) (g : Filter σ B C) :
    (∀ (c : Consumer σ B) (s : σ), PBind (PUnit a) f c s = f a c s) ∧
    (∀ (c : Consumer σ A) (s : σ), PBind p PUnit c s = p c s) ∧
    (∀ (c : Consumer σ C) (s : σ),
      PBind (PBind p f) g c s = PBind p (KleisliComposition f g) c s) :=
  ⟨fun _ _ => rfl, fun _ _ => rfl, fun _ _ => rfl⟩

/-- C4 counterexample: with `f` producing two values and `g`, `h`
producing distinct marks, `(f * (g + h))(x)` delivers `g` and `h`
results interleaved per input value while `(f*g + f*h)(x)` delivers all
`g` results first, so the two delivered sequences differ. -/
theorem c4_not_sequence_equal :
    run (KleisliComposition (fun x => ofList [x, x + 1])
        (FAdd (fun b => ofList [b]) (fun b => ofList [b + 10])) 0) ≠
      run (FAdd
        (KleisliComposition (fun x => ofList [x, x + 1]) (fun b => ofList [b]))
        (KleisliComposition (fun x => ofList [x, x + 1])
          (fun b => ofList [b + 10])) 0) := by
  decide

/-- C4 amended: for sequence-like filters, `(f * (g + h))(x)` delivers
the same multiset of values as `((f*g) + (f*h))(x)` — the two delivered
sequences are permutations of one another — but not, in general, the
identical sequence. -/
theorem c4_right_distrib_up_to_perm {A B C : Type}
    (f : Filter (List C) A B) (g h : Filter (List C) B C) (x : A)
    (F : A → List B) (G H : B → List C)
    (hf : f = fun a => ofList (F a)) (hg : g = fun b => ofList (G b))
    (hh : h = fun b => ofList (H b)) :
    (run (KleisliComposition f (FAdd g h) x)).Perm
      (run (FAdd (KleisliComposition f g) (KleisliComposition f h) x)) := by
  subst hf hg hh
  have hL : KleisliComposition (fun a => ofList (F a))
      (FAdd (fun b => ofList (G b)) (fun b => ofList (H b))) x =
      (ofList ((F x).flatMap fun b => G b ++ H b) : Producer (List C) C) := by
    show PBind (ofList (F x)) _ = _
    have : (FAdd (fun b => (ofList (G b) : Producer (List C) C))
        (fun b => ofList (H b))) = fun b => ofList (G b ++ H b) := by
      funext b
      exact PAdd_ofList (G b) (H b)
    rw [this, PBind_ofList]
  have hR : FAdd (KleisliComposition (fun a => ofList (F a)) fun b => ofList (G b))
      (KleisliComposition (fun a => ofList (F a)) fun b => ofList (H b)) x =
      (ofList ((F x).flatMap G ++ (F x).flatMap H) : Producer (List C) C) := by
    show PAdd (PBind (ofList (F x)) _) (PBind (ofList (F x)) _) = _
    rw [PBind_ofList, PBind_ofList, PAdd_ofList]
  rw [hL, hR, run_ofList, run_ofList]
  exact perm_flatMap_append (F x) G H

/-- C4 witness: the amended permutation statement at the inputs of the
counterexample. -/
theorem c4_witness :
    (run (KleisliComposition (fun x => ofList [x, x + 1])
        (FAdd (fun b => ofList [b]) (fun b => ofList [b + 10])) 0)).Perm
      (run (FAdd
        (KleisliComposition (fun x => ofList [x, x + 1]) (fun b => ofList [b]))
        (KleisliComposition (fun x => ofList [x, x + 1])
          (fun b => ofList [b + 10])) 0)) :=
  c4_right_distrib_up_to_perm _ _ _ 0 (fun x => [x, x + 1]) (fun b => [b])
    (fun b => [b + 10]) rfl rfl rfl

/-- C5 counterexample: the claim asserts that for some filters the two
sides deliver different orders; in fact `((f+g)*h)(x)` and
`((f*h)+(g*h))(x)` deliver the identical sequence for every choice of
filters, consumer and state, so no such instance exists (shown here at
ground types). -/
theorem c5_no_order_difference :
    ¬ ∃ (f g : Filter (List Nat) Nat Nat) (h : Filter (List Nat) Nat Nat)
        (x : Nat),
        run (KleisliComposition (FAdd f g) h x) ≠
          run (FAdd (KleisliComposition f h) (KleisliComposition g h) x) := by
  rintro ⟨f, g, h, x, hne⟩
  exact hne rfl

/-- C5 amended: `((f+g)*h)(x)` and `((f*h)+(g*h))(x)` deliver the
identical value sequence to every consumer from every state — hence in
particular the same multiset — and never differ in order; the claimed
reordering arises for `f*(g+h)` versus `f*g + f*h`, not here. -/
theorem c5_left_factor_chain_exact {σ A B C : Type} (f g : Filter σ A B)
    (h : Filter σ B C) (x : A) (c : Consumer σ C) (s : σ) :
    KleisliComposition (FAdd f g) h x c s =
      FAdd (KleisliComposition f h) (KleisliComposition g h) x c s :=
  rfl

/-- C6 counterexample: with `h`-results and `g`-results both plural,
`FFork(f,h) * FCross(g,i)` varies the forked pair fastest across `g`
while `FFork(f*g, h*i)` varies the chained components independently, so
the delivered tuple sequences differ. -/
theorem c6_not_sequence_equal :
    run (KleisliComposition
        (FFork (fun _ => ofList [1]) (fun _ => ofList [10, 20]))
        (FCross (fun a => ofList [a, a + 100]) (fun b => ofList [b])) 0) ≠
      run (FFork
        (KleisliComposition (fun _ => ofList [1])
          (fun a => ofList [a, a + 100]))
        (KleisliComposition (fun _ => ofList [10, 20])
          (fun b => ofList [b])) 0) := by
  decide

/-- C6 amended: for sequence-like filters, `FFork(f,h) * FCross(g,i)`
and `FFork(f*g, h*i)` deliver the same multiset of output tuples — the
delivered sequences are permutations — but not, in general, in the same
order: the left side varies the forked pair `(a, b)` slower than the
chained outputs, the right side varies `(a, g-output)` slower than
`(b, i-output)`. -/
theorem c6_fork_cross_up_to_perm {X B1 B2 C1 C2 : Type}
    (f : Filter (List (C1 × C2)) X B1) (h : Filter (List (C1 × C2)) X B2)
    (g : Filter (List (C1 × C2)) B1 C1) (i : Filter (List (C1 × C2)) B2 C2)
    (x : X) (Fl : X → List B1) (Hl : X → List B2) (G : B1 → List C1)
    (I : B2 → List C2)
    (hf : f = fun a => ofList (Fl a)) (hh : h = fun a => ofList (Hl a))
    (hg : g = fun b => ofList (G b)) (hi : i = fun b => ofList (I b)) :
    (run (KleisliComposition (FFork f h) (FCross g i) x)).Perm
      (run (FFork (KleisliComposition f g) (KleisliComposition h i) x)) := by
  subst hf hh hg hi
  have hL : KleisliComposition
      (FFork (fun a => ofList (Fl a)) fun a => ofList (Hl a))
      (FCross (fun b => ofList (G b)) fun b => ofList (I b)) x =
      (ofList (((Fl x).flatMap fun a => (Hl x).map (Prod.mk a)).flatMap
          fun t => (G t.1).flatMap fun c1 => (I t.2).map (Prod.mk c1)) :
        Producer (List (C1 × C2)) (C1 × C2)) := by
    show PBind (PCross (ofList (Fl x)) (ofList (Hl x))) _ = _
    rw [PCross_ofList]
    have : (FCross (fun b => (ofList (G b) : Producer (List (C1 × C2)) C1))
        (fun b => ofList (I b))) =
        fun t : B1 × B2 =>
          (ofList ((G t.1).flatMap fun c1 => (I t.2).map (Prod.mk c1)) :
            Producer (List (C1 × C2)) (C1 × C2)) := by
      funext t
      exact PCross_ofList (G t.1) (I t.2)
    rw [this, PBind_ofList]
  have hR : FFork
      (KleisliComposition (fun a => ofList (Fl a)) fun b => ofList (G b))
      (KleisliComposition (fun a => ofList (Hl a)) fun b => ofList (I b)) x =
      (ofList (((Fl x).flatMap G).flatMap
          fun c1 => ((Hl x).flatMap I).map (Prod.mk c1)) :
        Producer (List (C1 × C2)) (C1 × C2)) := by
    show PCross (PBind (ofList (Fl x)) _) (PBind (ofList (Hl x)) _) = _
    rw [PBind_ofList, PBind_ofList, PCross_ofList]
  rw [hL, hR, run_ofList, run_ofList]
  simp only [List.flatMap_assoc, List.flatMap_map, List.map_flatMap]
  exact perm_flatMap_congr (Fl x) fun a =>
    perm_flatMap_comm (Hl x) (G a) fun b c1 => (I b).map (Prod.mk c1)

/-- C6 witness: the amended permutation statement at the inputs of the
counterexample. -/
theorem c6_witness :
    (run (KleisliComposition
        (FFork (fun _ => ofList [1]) (fun _ => ofList [10, 20]))
        (FCross (fun a => ofList [a, a + 100]) (fun b => ofList [b])) 0)).Perm
      (run (FFork
        (KleisliComposition (fun _ => ofList [1])
          (fun a => ofList [a, a + 100]))
        (KleisliComposition (fun _ => ofList [10, 20])
          (fun b => ofList [b])) 0)) :=
  c6_fork_cross_up_to_perm _ _ _ _ 0 (fun _ => [1]) (fun _ => [10, 20])
    (fun a => [a, a + 100]) (fun b => [b]) rfl rfl rfl rfl

/-- C7: the cross product of sequence-like producers delivers its tuples
in lexicographic order over produced-value indices, the left-most
producer varying slowest — at arity two and three, and likewise through
`LiftA` of a binary function. -/
theorem c7_pcross_lexicographic {A B C D : Type} (l1 : List A) (l2 : List B)
    (l3 : List C) (f : A → B → D)
    (p1 : Producer (List (A × B)) A) (p2 : Producer (List (A × B)) B)
    (q1 : Producer (List (A × B × C)) A) (q2 : Producer (List (A × B × C)) B)
    (q3 : Producer (List (A × B × C)) C)
    (r1 : Producer (List D) A) (r2 : Producer (List D) B)
    (hp1 : p1 = ofList l1) (hp2 : p2 = ofList l2)
    (hq1 : q1 = ofList l1) (hq2 : q2 = ofList l2) (hq3 : q3 = ofList l3)
    (hr1 : r1 = ofList l1) (hr2 : r2 = ofList l2) :
    run (PCross p1 p2) = (l1.flatMap fun a => l2.map (Prod.mk a)) ∧
    run (PCross3 q1 q2 q3) =
      (l1.flatMap fun a => l2.flatMap fun b => l3.map fun c => (a, b, c)) ∧
    run (LiftA2 f r1 r2) = (l1.flatMap fun a => l2.map (f a)) := by
  subst hp1 hp2 hq1 hq2 hq3 hr1 hr2
  refine ⟨?_, ?_, ?_⟩
  · rw [PCross_ofList, run_ofList]
  · rw [PCross3_ofList, run_ofList]
  · rw [LiftA2_ofList, run_ofList]

/-- C7 witness: over producers yielding 1, 2, 3 and "a", "b", "c" the
delivered order is exactly the nested-loop order of the claim, with the
left-most producer varying slowest. -/
theorem c7_witness :
    run (PCross (ofList [1, 2, 3]) (ofList ["a", "b", "c"])) =
      [(1, "a"), (1, "b"), (1, "c"), (2, "a"), (2, "b"), (2, "c"),
       (3, "a"), (3, "b"), (3, "c")] ∧
    run (PCross3 (ofList [1, 2, 3]) (ofList ["a", "b", "c"]) (ofList [true])) =
      [(1, "a", true), (1, "b", true), (1, "c", true),
       (2, "a", true), (2, "b", true), (2, "c", true),
       (3, "a", true), (3, "b", true), (3, "c", true)] ∧
    run (LiftA2 Prod.mk (ofList [1, 2, 3]) (ofList ["a", "b", "c"])) =
      [(1, "a"), (1, "b"), (1, "c"), (2, "a"), (2, "b"), (2, "c"),
       (3, "a"), (3, "b"), (3, "c")] := by
  obtain ⟨h1, h2, h3⟩ := c7_pcross_lexicographic [1, 2, 3] ["a", "b", "c"]
    [true] Prod.mk _ _ _ _ _ _ _ rfl rfl rfl rfl rfl rfl rfl
  exact ⟨h1, h2, h3⟩

/-!
C8: `repeated_obj` on a record with n collection elements.  The state of
the traversal carries the record alongside the observation data: a trace
of (read-only value, value behind the mutable handle) pairs for the
counting claims, or a callback counter for the mutation claim.
-/

/-- Recording consumer over RW views: appends, per view, the value read
through the read-only half and the value behind the mutable handle, if
present, onto a trace carried next to the record. -/
def traceRW {P F : Type} :
    Consumer (P × List (F × Option F)) (RW (P × List (F × Option F)) F) :=
  fun rwv s => (s.1, s.2 ++ [(rwv.ro s, rwv.rw.map fun l => l.get s)])

/-- Recording consumer for read-only traversals (no record in the state,
which never changes). -/
def traceRO {F : Type} :
    Consumer (List (F × Option F)) (RW (List (F × Option F)) F) :=
  fun rwv s => s ++ [(rwv.ro s, rwv.rw.map fun l => l.get s)]

/-- A consumer that writes `x` through the mutable handle of the i-th
callback (counting from 0) and ignores the others; the state carries the
record and the callback counter. -/
def setNth {P F : Type} (i : Nat) (x : F) :
    Consumer (P × Nat) (RW (P × Nat) F) :=
  fun rwv s =>
    match rwv.rw with
    | some l => if s.2 = i then ((l.set x s).1, s.2 + 1) else (s.1, s.2 + 1)
    | none => (s.1, s.2 + 1)

theorem getD_append_left_length {α : Type} (A B : List α) (a d : α) :
    (A ++ a :: B).getD A.length d = a := by
  rw [List.getD_eq_getElem?_getD, List.getElem?_append_right (le_refl _)]
  simp

theorem set_append_length {α : Type} (A B : List α) (a b : α) :
    (A ++ a :: B).set A.length b = A ++ b :: B := by
  rw [List.set_append]
  simp

/-- The body of `scan_ptrs` as seen by the present-handle recording
traversal of C8. -/
def c8stepRW {P F : Type} [Inhabited F] (roa : P → List F) (rwa : Lens P (List F))
    (s : P × List (F × Option F)) (i : Nat) : P × List (F × Option F) :=
  traceRW
    (RW.mk (fun s => (roa s.1).getD i default)
      (some ((Lens.fst.comp rwa).comp (idxLens i)))) s

theorem c8_unfold_present {P F : Type} [Inhabited F] (roa : P → List F)
    (rwa : Lens P (List F)) (rec : P) :
    repeated_obj roa rwa (RW.mk (fun s => s.1) (some Lens.fst)) traceRW
        (rec, ([] : List (F × Option F))) =
      (List.range (roa rec).length).foldl (c8stepRW roa rwa) (rec, []) :=
  rfl

theorem c8_fold_present {P F : Type} [Inhabited F] (roa : P → List F)
    (rwa : Lens P (List F)) (rec : P) (hcoh : roa rec = rwa.get rec) :
    ∀ k, k ≤ (roa rec).length →
      (List.range k).foldl (c8stepRW roa rwa) (rec, []) =
        (rec, ((roa rec).take k).map fun e => (e, some e)) := by
  intro k
  induction k with
  | zero => intro _; rfl
  | succ k ih =>
      intro hk1
      have hk : k < (roa rec).length := hk1
      rw [foldl_range_succ, ih (Nat.le_of_lt hk)]
      show (rec, _ ++ [((roa rec).getD k default,
        some ((rwa.get rec).getD k default))]) = _
      rw [List.take_succ, List.getElem?_eq_getElem hk]
      simp only [List.getD_eq_getElem?_getD, List.getElem?_eq_getElem hk, ← hcoh,
        Option.getD_some, List.map_append, List.map_cons, List.map_nil, Option.toList_some]

/-- The body of `scan_ptrs` as seen by the absent-handle recording
traversal of C8. -/
def c8stepRO {F : Type} [Inhabited F] (es : List F)
    (s : List (F × Option F)) (i : Nat) : List (F × Option F) :=
  traceRO (RW.mk (fun _ => es.getD i default) none) s

theorem c8_unfold_absent {P F : Type} [Inhabited F] (roa : P → List F)
    (rwa : Lens P (List F)) (rec : P) :
    repeated_obj roa rwa (RW.mk (fun _ => rec) none) traceRO
        ([] : List (F × Option F)) =
      (List.range (roa rec).length).foldl (c8stepRO (roa rec)) [] :=
  rfl

theorem c8_fold_absent {F : Type} [Inhabited F] (es : List F) :
    ∀ k, k ≤ es.length →
      (List.range k).foldl (c8stepRO es) [] =
        ((es.take k).map fun e => (e, none)) := by
  intro k
  induction k with
  | zero => intro _; rfl
  | succ k ih =>
      intro hk1
      have hk : k < es.length := hk1
      rw [foldl_range_succ, ih (Nat.le_of_lt hk)]
      show _ ++ [(es.getD k default, none)] = _
      rw [List.take_succ, List.getElem?_eq_getElem hk]
      simp only [List.getD_eq_getElem?_getD, List.getElem?_eq_getElem hk,
        Option.getD_some, List.map_append, List.map_cons, List.map_nil, Option.toList_some]

/-- The body of `scan_ptrs` as seen by the single-slot mutating
traversal of C8. -/
def c8stepSet {P F : Type} [Inhabited F] (roa : P → List F)
    (rwa : Lens P (List F)) (i : Nat) (x : F) (s : P × Nat) (j : Nat) :
    P × Nat :=
  setNth i x
    (RW.mk (fun s => (roa s.1).getD j default)
      (some ((Lens.fst.comp rwa).comp (idxLens j)))) s

theorem c8_unfold_set {P F : Type} [Inhabited F] (roa : P → List F)
    (rwa : Lens P (List F)) (rec : P) (i : Nat) (x : F) :
    repeated_obj roa rwa (RW.mk (fun s => s.1) (some Lens.fst)) (setNth i x)
        (rec, 0) =
      (List.range (roa rec).length).foldl (c8stepSet roa rwa i x) (rec, 0) :=
  rfl

theorem c8_fold_set {P F : Type} [Inhabited F] (roa : P → List F)
    (rwa : Lens P (List F)) (rec : P) (i : Nat) (x : F) :
    ∀ k,
      (List.range k).foldl (c8stepSet roa rwa i x) (rec, 0) =
        (if i < k then rwa.set ((rwa.get rec).set i x) rec else rec, k) := by
  intro k
  induction k with
  | zero => simp
  | succ k ih =>
      rw [foldl_range_succ, ih]
      by_cases hik : i < k
      · have : i < k + 1 := Nat.lt_succ_of_lt hik
        have hne : k ≠ i := by omega
        simp [c8stepSet, setNth, hik, hne, this]
      · by_cases hk : k = i
        · subst hk
          simp [c8stepSet, setNth, hik, Lens.comp, Lens.fst, idxLens]
        · have : ¬ i < k + 1 := by omega
          simp [c8stepSet, setNth, hik, hk, this]

/-- C8: over a record whose repeated collection holds elements
`e_0, ..., e_(n-1)`, the filter built by `repeated_obj` (i) with the
record handle present yields exactly n views in collection order, the
i-th pairing the i-th read-only element with a mutable handle holding
the i-th element of the mutable collection; (ii) with the handle absent
yields the same n views each with an absent mutable handle; and (iii)
writing through the i-th surfaced handle rewrites exactly slot i of the
mutable collection. -/
theorem c8_repeated_obj_views {P F : Type} [Inhabited F] (roa : P → List F)
    (rwa : Lens P (List F)) (rec : P) (i : Nat) (x : F)
    (hcoh : roa rec = rwa.get rec) (hi : i < (roa rec).length) :
    repeated_obj roa rwa (RW.mk (fun s => s.1) (some Lens.fst)) traceRW
        (rec, ([] : List (F × Option F))) =
      (rec, (roa rec).map fun e => (e, some e)) ∧
    repeated_obj roa rwa (RW.mk (fun _ => rec) none) traceRO
        ([] : List (F × Option F)) =
      ((roa rec).map fun e => (e, none)) ∧
    repeated_obj roa rwa (RW.mk (fun s => s.1) (some Lens.fst)) (setNth i x)
        (rec, 0) =
      (rwa.set ((rwa.get rec).set i x) rec, (roa rec).length) := by
  refine ⟨?_, ?_, ?_⟩
  · rw [c8_unfold_present,
      c8_fold_present roa rwa rec hcoh (roa rec).length (le_refl _),
      List.take_length]
  · rw [c8_unfold_absent roa rwa rec,
      c8_fold_absent (roa rec) (roa rec).length (le_refl _), List.take_length]
  · rw [c8_unfold_set, c8_fold_set roa rwa rec i x (roa rec).length]
    simp [hi]

/-- C8 witness: the identity collection over a two-element record. -/
theorem c8_witness :
    repeated_obj (fun l : List Nat => l) Lens.root
        (RW.mk (fun s => s.1) (some Lens.fst)) traceRW
        ([5, 7], ([] : List (Nat × Option Nat))) =
      ([5, 7], [(5, some 5), (7, some 7)]) ∧
    repeated_obj (fun l : List Nat => l) Lens.root
        (RW.mk (fun _ => [5, 7]) none) traceRO
        ([] : List (Nat × Option Nat)) =
      [(5, none), (7, none)] ∧
    repeated_obj (fun l : List Nat => l) Lens.root
        (RW.mk (fun s => s.1) (some Lens.fst)) (setNth 1 9) ([5, 7], 0) =
      ([5, 9], 2) :=
  c8_repeated_obj_views (fun l => l) Lens.root [5, 7] 1 9 rfl (by decide)

/-!
C9: the read-write / read-only round trip over the manager-names
pipeline `c.teams * t.manager * p.name`, for an arbitrary company tree
and an arbitrary rewrite of the targeted field.
-/

/-- The per-team effect of rewriting manager names by `u`: the manager
name, when a manager is present, is rewritten; every other field is kept. -/
def applyTeam (u : String → String) (t : Team) : Team :=
  { t with manager := t.manager.map fun m => { m with name := u m.name } }

/-- The mutable handle surfaced for the manager name of team `i` by the
read-write manager-names traversal. -/
def c9nameLens (i : Nat) : Lens Company String :=
  (((Lens.root.comp companyTeamsLens).comp (idxLens i)).comp
    teamManagerLens).comp personNameLens

/-- One step of the read-write manager-names traversal: visiting team
`i`, rewriting its manager name by `u` when a manager is present. -/
def c9step (u : String → String) (s : Company) (i : Nat) : Company :=
  if (s.teams.getD i default).manager.isSome then
    (c9nameLens i).set (u ((c9nameLens i).get s)) s
  else s

theorem c9_unfold_rewrite (u : String → String) (co : Company) :
    rewriteAll managerNames u co =
      (List.range co.teams.length).foldl (c9step u) co :=
  rfl

/-- The company after the first `k` teams have been processed. -/
def upToTeams (u : String → String) (k : Nat) (co : Company) : Company :=
  { co with teams := (co.teams.take k).map (applyTeam u) ++ co.teams.drop k }

theorem filterMap_concat {α β : Type} (l : List α) (a : α) (f : α → Option β) :
    (l ++ [a]).filterMap f = l.filterMap f ++ (f a).toList := by
  rw [List.filterMap_append]
  cases h : f a with
  | none => simp [List.filterMap_cons, h]
  | some b => simp [List.filterMap_cons, h]

theorem applyTeam_none (u : String → String) (t : Team)
    (hm : t.manager = none) : applyTeam u t = t := by
  cases t with
  | mk n mr ms =>
      simp only at hm
      subst hm
      rfl

theorem applyTeam_some (u : String → String) (t : Team) (m : Person)
    (hm : t.manager = some m) :
    applyTeam u t = { t with manager := some ({ m with name := u m.name }) } := by
  cases t with
  | mk n mr ms =>
      simp only at hm
      subst hm
      rfl

/-- Visiting the team at the boundary position of an already-processed
prefix rewrites exactly the manager name of that team. -/
theorem c9step_at (u : String → String) (nm : String) (A B : List Team)
    (t : Team) :
    c9step u (Company.mk nm (A ++ t :: B)) A.length =
      Company.mk nm (A ++ applyTeam u t :: B) := by
  have hget : (A ++ t :: B).getD A.length default = t :=
    getD_append_left_length A B t default
  cases hm : t.manager with
  | none =>
      show (if ((A ++ t :: B).getD A.length default).manager.isSome then
          (c9nameLens A.length).set
            (u ((c9nameLens A.length).get (Company.mk nm (A ++ t :: B))))
            (Company.mk nm (A ++ t :: B))
        else Company.mk nm (A ++ t :: B)) = _
      rw [hget, hm, applyTeam_none u t hm]
      simp
  | some m =>
      simp only [c9step, hget, hm, Option.isSome_some, if_true, c9nameLens,
        Lens.comp, Lens.root, idxLens, companyTeamsLens, teamManagerLens,
        personNameLens, Option.getD_some]
      rw [set_append_length, applyTeam_some u t m hm]

theorem c9_fold (u : String → String) (co : Company) :
    ∀ k, k ≤ co.teams.length →
      (List.range k).foldl (c9step u) co = upToTeams u k co := by
  intro k
  induction k with
  | zero => intro _; rfl
  | succ k ih =>
      intro hk1
      have hk : k < co.teams.length := hk1
      rw [foldl_range_succ, ih (Nat.le_of_lt hk)]
      have hlen : ((co.teams.take k).map (applyTeam u)).length = k := by
        simp [List.length_take, Nat.min_eq_left (Nat.le_of_lt hk)]
      have hdrop : co.teams.drop k = co.teams[k] :: co.teams.drop (k + 1) :=
        List.drop_eq_getElem_cons hk
      have hup : upToTeams u k co =
          Company.mk co.name ((co.teams.take k).map (applyTeam u) ++
            co.teams[k] :: co.teams.drop (k + 1)) := by
        show Company.mk co.name _ = _
        rw [hdrop]
      have hstep := c9step_at u co.name ((co.teams.take k).map (applyTeam u))
        (co.teams.drop (k + 1)) co.teams[k]
      rw [hlen] at hstep
      rw [hup, hstep]
      have htake : (co.teams.take (k + 1)).map (applyTeam u) =
          (co.teams.take k).map (applyTeam u) ++ [applyTeam u co.teams[k]] := by
        rw [List.take_succ, List.getElem?_eq_getElem hk]
        simp only [Option.toList_some, List.map_append, List.map_cons,
          List.map_nil]
      show _ = Company.mk co.name ((co.teams.take (k + 1)).map (applyTeam u) ++
        co.teams.drop (k + 1))
      rw [htake, List.append_assoc, List.singleton_append]

/-- One step of the read-only manager-names traversal: record the
manager name of team `i` when a manager is present. -/
def c9obsStep (co : Company) (s : List String) (i : Nat) : List String :=
  if (co.teams.getD i default).manager.isSome then
    s ++ [((co.teams.getD i default).manager.getD default).name]
  else s

theorem c9_unfold_observe (co : Company) :
    observeRO managerNames co =
      (List.range co.teams.length).foldl (c9obsStep co) [] :=
  rfl

theorem c9_observe (co : Company) :
    observeRO managerNames co =
      co.teams.filterMap fun t => t.manager.map fun m => m.name := by
  rw [c9_unfold_observe]
  have key : ∀ k, k ≤ co.teams.length →
      (List.range k).foldl (c9obsStep co) [] =
        (co.teams.take k).filterMap fun t => t.manager.map fun m => m.name := by
    intro k
    induction k with
    | zero => intro _; rfl
    | succ k ih =>
        intro hk1
        have hk : k < co.teams.length := hk1
        rw [foldl_range_succ, ih (Nat.le_of_lt hk), List.take_succ,
          List.getElem?_eq_getElem hk, Option.toList_some, filterMap_concat]
        cases hm : co.teams[k].manager with
        | none =>
            simp [c9obsStep, List.getD_eq_getElem?_getD,
              List.getElem?_eq_getElem hk, hm]
        | some m =>
            simp [c9obsStep, List.getD_eq_getElem?_getD,
              List.getElem?_eq_getElem hk, hm]
  rw [key co.teams.length (le_refl _), List.take_length]

/-- C9 counterexample: the round trip does not hold for every RW filter.
An RW filter whose surfaced mutable handle does not alias its read-only
view — here one whose read half always yields a fixed string while its
mutable half is a live handle to the company name — is a well-typed
`RWFilter`, and for it the rewrite does reach the tree (the company name
becomes the rewritten value) yet the subsequent `ReadOnly` run does not
observe the rewritten value: it keeps reporting the fixed string, so the
observation differs from the rewritten original observation. -/
theorem c9_not_every_filter :
    rewriteAll
        (fun rwp => PUnit (RW.mk (fun _ => "fixed")
          (rwp.rw.map fun l => l.comp companyNameLens)))
        (fun _ => "rewritten") (Company.mk "orig" []) =
      Company.mk "rewritten" [] ∧
    observeRO
        (fun rwp => PUnit (RW.mk (fun _ => "fixed")
          (rwp.rw.map fun l => l.comp companyNameLens)))
        (rewriteAll
          (fun rwp => PUnit (RW.mk (fun _ => "fixed")
            (rwp.rw.map fun l => l.comp companyNameLens)))
          (fun _ => "rewritten") (Company.mk "orig" [])) ≠
      (observeRO
        (fun rwp => PUnit (RW.mk (fun _ => "fixed")
          (rwp.rw.map fun l => l.comp companyNameLens)))
        (Company.mk "orig" [])).map (fun _ => "rewritten") := by
  refine ⟨rfl, ?_⟩
  decide

/-- C9 amended: the mutation round trip for the round-trip projection of
the specification, `c.teams * t.manager * p.name` — a filter whose
surfaced handles alias their read-only views, as the RW invariant
demands — quantified over every record tree and every targeted-field
rewrite: rewriting every surfaced manager name by `u` (i) changes
exactly the targeted fields — the resulting tree is the original with
precisely the present manager names rewritten; (ii) the equivalent
read-only projection afterwards observes exactly the rewritten values;
and (iii, iv, v) the company name, every team name and every member list
are unchanged. -/
theorem c9_mutation_round_trip (u : String → String) (co : Company) :
    rewriteAll managerNames u co =
      { co with teams := co.teams.map (applyTeam u) } ∧
    observeRO managerNames (rewriteAll managerNames u co) =
      (observeRO managerNames co).map u ∧
    (rewriteAll managerNames u co).name = co.name ∧
    (rewriteAll managerNames u co).teams.map (fun t => t.name) =
      co.teams.map (fun t => t.name) ∧
    (rewriteAll managerNames u co).teams.map (fun t => t.members) =
      co.teams.map (fun t => t.members) := by
  have h1 : rewriteAll managerNames u co =
      { co with teams := co.teams.map (applyTeam u) } := by
    rw [c9_unfold_rewrite, c9_fold u co co.teams.length (le_refl _)]
    show ({ co with teams := _ } : Company) = _
    rw [List.take_length, List.drop_length, List.append_nil]
  refine ⟨h1, ?_, ?_, ?_, ?_⟩
  · rw [h1, c9_observe, c9_observe]
    simp [List.filterMap_map, List.map_filterMap, applyTeam, Option.map_map,
      Function.comp_def]
  · rw [h1]
  · rw [h1]
    simp [applyTeam]
  · rw [h1]
    simp [applyTeam]

/-- C10: mapping a producer and contramapping a consumer are
interchangeable around fusion: the two fused effects transform every
state identically, so they cause the identical sequence of calls to the
underlying consumer. -/
theorem c10_fmap_cofmap_adjoint {σ A B : Type} (f : A → B)
    (p : Producer σ A) (c : Consumer σ B) (s : σ) :
    Fuse (Fmap f p) c s = Fuse p (Cofmap f c) s :=
  rfl

end CP



